import Mathlib

/-!
Verification of the `proctor_schedule` pipeline.

A shallow embedding of `src/proctor_schedule/make_calendar.py` (polars /
icalendar pipeline) together with theorems settling the specification's
claims about it.

Modelling conventions:
* A raw spreadsheet row (`RawRow`) keeps its non-Proctor columns as a
  row-major list of nullable cells (`Option String`) and its "Proctor N"
  columns as a list of nullable strings.  Column order is fixed per table,
  so positional lists model the polars schema faithfully.
* Timestamps are minutes (as `Int`): the pipeline only compares and
  subtracts them, so any linearly ordered representation is faithful.
* `uuid4()` is modelled by an arbitrary supply `uid : Nat → Nat` consumed
  in event-creation order: the pipeline never inspects uid contents.
-/

namespace ProctorSchedule

/-- One raw spreadsheet row: the non-Proctor cells (row-major, nullable) and
the "Proctor N" cells, mirroring the wide layout read by
`pl.read_excel` in `make_calendar.py`. -/
structure RawRow where
  cells : List (Option String)
  proctors : List (Option String)
deriving DecidableEq, Repr

/-- A row of the long (unpivoted) table: the non-Proctor cells plus the
single non-null `Proctor` value, as produced by
`.unpivot(cs.starts_with("Proctor"), ...).drop("variable").drop_nulls("Proctor")`. -/
abbrev LongRow := List (Option String) × String

/-- Model of `unpivot` over `k` Proctor columns followed by
`drop_nulls("Proctor")`:
for each value column `j` in order, every row of the table contributes its
`(cells, proctors[j])` copy, and copies whose Proctor value is null are
dropped.  polars stacks the value columns block by block, each block in
original row order. -/
def unpivotDropNulls (k : Nat) (rows : List RawRow) : List LongRow :=
  (List.range k).flatMap fun j =>
    rows.filterMap fun r => (r.proctors.getD j none).map fun p => (r.cells, p)

/-- Forward-fill of a single cell: a null cell takes the carried value from
the previous row of the same column (`fill_null(strategy="forward")`). -/
def fillCell (prev c : Option String) : Option String :=
  match c with
  | some v => some v
  | none => prev

/-- Forward-fill one row of cells against the carried values of the previous
row.  When the carry list is exhausted (only at the very first row, where it
is empty) cells are left as they are. -/
def fillCells : List (Option String) → List (Option String) → List (Option String)
  | p :: ps, c :: cs => fillCell p c :: fillCells ps cs
  | _, cs => cs

/-- Forward-fill the long table, threading the filled cells of each row as
the carry for the next: `.fill_null(strategy="forward")` over the unpivoted,
Proctor-filtered table. -/
def fillRows : List (Option String) → List LongRow → List LongRow
  | _, [] => []
  | prev, (c, p) :: rest =>
      let f := fillCells prev c
      (f, p) :: fillRows f rest

/-- The whole forward-fill step: no carry exists before the first row. -/
def fillTable (l : List LongRow) : List LongRow :=
  fillRows [] l

theorem fillCell_idem (p c : Option String) :
    fillCell p (fillCell p c) = fillCell p c := by
  cases c <;> cases p <;> rfl

theorem fillCells_idem (p c : List (Option String)) :
    fillCells p (fillCells p c) = fillCells p c := by
  induction p generalizing c with
  | nil => rfl
  | cons p ps ih =>
      cases c with
      | nil => rfl
      | cons c cs => simp [fillCells, fillCell_idem, ih]

theorem fillRows_idem (prev : List (Option String)) (l : List LongRow) :
    fillRows prev (fillRows prev l) = fillRows prev l := by
  induction l generalizing prev with
  | nil => rfl
  | cons r rest ih =>
      obtain ⟨c, p⟩ := r
      simp only [fillRows, fillCells_idem]
      exact congrArg _ (ih (fillCells prev c))

/-- Insert one `(key, value)` row into a running list of groups: the value
is appended to its key's group, or a fresh group is opened at the end. -/
def insertGrouped {κ α : Type} [DecidableEq κ] (k : κ) (v : α) :
    List (κ × List α) → List (κ × List α)
  | [] => [(k, [v])]
  | (k₀, vs) :: rest =>
      if k₀ = k then (k₀, vs ++ [v]) :: rest
      else (k₀, vs) :: insertGrouped k v rest

/-- Fold the rows of a keyed table into groups, starting from `acc`. -/
def groupInto {κ α : Type} [DecidableEq κ] (acc : List (κ × List α)) :
    List (κ × α) → List (κ × List α)
  | [] => acc
  | (k, v) :: rest => groupInto (insertGrouped k v acc) rest

/-- polars `group_by` over a key column: one group per distinct key, holding
all values carried by that key, in row order.  (polars does not guarantee a
group order; this model fixes first-occurrence order, which is immaterial to
every claim.)  Used both for
`.group_by(~cs.by_name("Proctor")).agg(...)` in `clean_proctor_schedule`
and for `sched.group_by("Proctor")` in `main`. -/
def groupPairs {κ α : Type} [DecidableEq κ] (l : List (κ × α)) :
    List (κ × List α) :=
  groupInto [] l

/-- Total number of values across all groups (events counted with
multiplicity). -/
def groupsTotal {κ α : Type} (g : List (κ × List α)) : Nat :=
  (g.map (fun e => e.2.length)).sum

theorem groupsTotal_nil {κ α : Type} :
    groupsTotal ([] : List (κ × List α)) = 0 := rfl

theorem groupsTotal_cons {κ α : Type} (g : κ × List α)
    (rest : List (κ × List α)) :
    groupsTotal (g :: rest) = g.2.length + groupsTotal rest := by
  simp [groupsTotal]

theorem groupsTotal_insertGrouped {κ α : Type} [DecidableEq κ] (k : κ) (v : α)
    (acc : List (κ × List α)) :
    groupsTotal (insertGrouped k v acc) = groupsTotal acc + 1 := by
  induction acc with
  | nil => simp [insertGrouped, groupsTotal]
  | cons g rest ih =>
      obtain ⟨k₀, vs⟩ := g
      by_cases h : k₀ = k
      · simp only [insertGrouped, if_pos h, groupsTotal_cons]
        simp
        omega
      · simp only [insertGrouped, if_neg h, groupsTotal_cons]
        omega

theorem groupsTotal_groupInto {κ α : Type} [DecidableEq κ]
    (l : List (κ × α)) (acc : List (κ × List α)) :
    groupsTotal (groupInto acc l) = groupsTotal acc + l.length := by
  induction l generalizing acc with
  | nil => simp [groupInto]
  | cons e rest ih =>
      obtain ⟨k, v⟩ := e
      simp only [groupInto, List.length_cons]
      rw [ih, groupsTotal_insertGrouped]
      omega

theorem groupsTotal_groupPairs {κ α : Type} [DecidableEq κ] (l : List (κ × α)) :
    groupsTotal (groupPairs l) = l.length := by
  rw [groupPairs, groupsTotal_groupInto]
  simp [groupsTotal]

theorem mem_insertGrouped {κ α : Type} [DecidableEq κ] {k : κ} {v₀ : α}
    {acc : List (κ × List α)} {g : κ × List α}
    (hg : g ∈ insertGrouped k v₀ acc) {v : α} (hv : v ∈ g.2) :
    (∃ g₀ ∈ acc, g₀.1 = g.1 ∧ v ∈ g₀.2) ∨ (g.1 = k ∧ v = v₀) := by
  induction acc with
  | nil =>
      simp only [insertGrouped, List.mem_singleton] at hg
      subst hg
      simp only [List.mem_singleton] at hv
      exact Or.inr ⟨rfl, hv⟩
  | cons g₁ rest ih =>
      obtain ⟨k₀, vs⟩ := g₁
      by_cases h : k₀ = k
      · simp only [insertGrouped] at hg
        rw [if_pos h] at hg
        rcases List.mem_cons.mp hg with hg | hg
        · subst hg
          simp only [List.mem_append, List.mem_singleton] at hv
          rcases hv with hv | hv
          · exact Or.inl ⟨(k₀, vs), List.mem_cons_self _ _, rfl, hv⟩
          · exact Or.inr ⟨h, hv⟩
        · exact Or.inl ⟨g, List.mem_cons_of_mem _ hg, rfl, hv⟩
      · simp only [insertGrouped] at hg
        rw [if_neg h] at hg
        rcases List.mem_cons.mp hg with hg | hg
        · subst hg
          exact Or.inl ⟨(k₀, vs), List.mem_cons_self _ _, rfl, hv⟩
        · rcases ih hg with ⟨g₀, hg₀, hk₀, hv₀⟩ | hkv
          · exact Or.inl ⟨g₀, List.mem_cons_of_mem _ hg₀, hk₀, hv₀⟩
          · exact Or.inr hkv

theorem mem_of_mem_groupInto {κ α : Type} [DecidableEq κ]
    {l : List (κ × α)} {acc : List (κ × List α)} {g : κ × List α}
    (hg : g ∈ groupInto acc l) {v : α} (hv : v ∈ g.2) :
    (∃ g₀ ∈ acc, g₀.1 = g.1 ∧ v ∈ g₀.2) ∨ (g.1, v) ∈ l := by
  induction l generalizing acc with
  | nil => exact Or.inl ⟨g, hg, rfl, hv⟩
  | cons e rest ih =>
      obtain ⟨k, w⟩ := e
      simp only [groupInto] at hg
      rcases ih hg with ⟨g₀, hg₀, hk₀, hv₀⟩ | hmem
      · rcases mem_insertGrouped hg₀ hv₀ with ⟨g₁, hg₁, hk₁, hv₁⟩ | ⟨hk, hw⟩
        · exact Or.inl ⟨g₁, hg₁, hk₀ ▸ hk₁, hv₁⟩
        · refine Or.inr ?_
          rw [← hk₀, hk, hw]
          exact List.mem_cons_self _ _
      · exact Or.inr (List.mem_cons_of_mem _ hmem)

theorem mem_of_mem_groupPairs {κ α : Type} [DecidableEq κ]
    {l : List (κ × α)} {g : κ × List α} (hg : g ∈ groupPairs l)
    {v : α} (hv : v ∈ g.2) : (g.1, v) ∈ l := by
  rcases mem_of_mem_groupInto hg hv with ⟨g₀, hg₀, _, _⟩ | h
  · simp at hg₀
  · exact h

theorem insertGrouped_persists {κ α : Type} [DecidableEq κ] {k : κ} {v : α}
    {acc : List (κ × List α)} (h : ∃ vs, (k, vs) ∈ acc ∧ v ∈ vs)
    (k₁ : κ) (v₁ : α) :
    ∃ vs, (k, vs) ∈ insertGrouped k₁ v₁ acc ∧ v ∈ vs := by
  obtain ⟨vs, hmem, hv⟩ := h
  induction acc with
  | nil => simp at hmem
  | cons g rest ih =>
      obtain ⟨k₀, vs₀⟩ := g
      by_cases hb : k₀ = k₁
      · simp only [insertGrouped]
        rw [if_pos hb]
        rcases List.mem_cons.mp hmem with hmem | hmem
        · have hk : k = k₀ := congrArg Prod.fst hmem
          have hvs : vs = vs₀ := congrArg Prod.snd hmem
          refine ⟨vs₀ ++ [v₁], ?_, List.mem_append_left _ (hvs ▸ hv)⟩
          rw [hk]
          exact List.mem_cons_self _ _
        · exact ⟨vs, List.mem_cons_of_mem _ hmem, hv⟩
      · simp only [insertGrouped]
        rw [if_neg hb]
        rcases List.mem_cons.mp hmem with hmem | hmem
        · exact ⟨vs, List.mem_cons.mpr (Or.inl hmem), hv⟩
        · obtain ⟨vs', hmem', hv'⟩ := ih hmem
          exact ⟨vs', List.mem_cons_of_mem _ hmem', hv'⟩

theorem insertGrouped_adds {κ α : Type} [DecidableEq κ] (k : κ) (v : α)
    (acc : List (κ × List α)) :
    ∃ vs, (k, vs) ∈ insertGrouped k v acc ∧ v ∈ vs := by
  induction acc with
  | nil => exact ⟨[v], List.mem_singleton.mpr rfl, List.mem_singleton.mpr rfl⟩
  | cons g rest ih =>
      obtain ⟨k₀, vs₀⟩ := g
      by_cases hb : k₀ = k
      · subst hb
        refine ⟨vs₀ ++ [v], ?_, by simp⟩
        simp only [insertGrouped, if_true]
        exact List.mem_cons_self _ _
      · obtain ⟨vs, hmem, hv⟩ := ih
        refine ⟨vs, ?_, hv⟩
        simp only [insertGrouped]
        rw [if_neg hb]
        exact List.mem_cons_of_mem _ hmem

theorem groupInto_persists {κ α : Type} [DecidableEq κ] {k : κ} {v : α}
    (l : List (κ × α)) {acc : List (κ × List α)}
    (h : ∃ vs, (k, vs) ∈ acc ∧ v ∈ vs) :
    ∃ vs, (k, vs) ∈ groupInto acc l ∧ v ∈ vs := by
  induction l generalizing acc with
  | nil => exact h
  | cons e rest ih =>
      obtain ⟨k₁, v₁⟩ := e
      exact ih (insertGrouped_persists h k₁ v₁)

theorem mem_groupInto_of_mem {κ α : Type} [DecidableEq κ]
    {l : List (κ × α)} {k : κ} {v : α} (h : (k, v) ∈ l)
    (acc : List (κ × List α)) :
    ∃ vs, (k, vs) ∈ groupInto acc l ∧ v ∈ vs := by
  induction l generalizing acc with
  | nil => simp at h
  | cons e rest ih =>
      obtain ⟨k₁, v₁⟩ := e
      simp only [List.mem_cons, Prod.mk.injEq] at h
      rcases h with ⟨hk, hv⟩ | h
      · subst hk; subst hv
        exact groupInto_persists rest (insertGrouped_adds k v acc)
      · exact ih h _

theorem mem_groupPairs_of_mem {κ α : Type} [DecidableEq κ]
    {l : List (κ × α)} {k : κ} {v : α} (h : (k, v) ∈ l) :
    ∃ vs, (k, vs) ∈ groupPairs l ∧ v ∈ vs :=
  mem_groupInto_of_mem h []

theorem keys_insertGrouped {κ α : Type} [DecidableEq κ] (k : κ) (v : α)
    (acc : List (κ × List α)) :
    (insertGrouped k v acc).map (fun e => e.1) = acc.map (fun e => e.1) ∨
    (insertGrouped k v acc).map (fun e => e.1) = acc.map (fun e => e.1) ++ [k]
      ∧ k ∉ acc.map (fun e => e.1) := by
  induction acc with
  | nil => simp [insertGrouped]
  | cons g rest ih =>
      obtain ⟨k₀, vs₀⟩ := g
      by_cases hb : k₀ = k
      · subst hb
        simp only [insertGrouped, if_true]
        exact Or.inl rfl
      · simp only [insertGrouped]
        rw [if_neg hb]
        simp only [List.map_cons]
        rcases ih with ih | ⟨ih, hk⟩
        · exact Or.inl (by rw [ih])
        · refine Or.inr ⟨by rw [ih, List.cons_append], ?_⟩
          simp only [List.mem_cons]
          push_neg
          exact ⟨fun hkk => hb hkk.symm, hk⟩

theorem keys_nodup_insertGrouped {κ α : Type} [DecidableEq κ] (k : κ) (v : α)
    {acc : List (κ × List α)} (h : (acc.map (fun e => e.1)).Nodup) :
    ((insertGrouped k v acc).map (fun e => e.1)).Nodup := by
  rcases keys_insertGrouped k v acc with heq | ⟨heq, hk⟩
  · rw [heq]; exact h
  · rw [heq]
    simp only [List.nodup_append, List.nodup_singleton]
    exact ⟨h, trivial, by simpa using hk⟩

theorem keys_nodup_groupInto {κ α : Type} [DecidableEq κ]
    (l : List (κ × α)) {acc : List (κ × List α)}
    (h : (acc.map (fun e => e.1)).Nodup) :
    ((groupInto acc l).map (fun e => e.1)).Nodup := by
  induction l generalizing acc with
  | nil => exact h
  | cons e rest ih =>
      obtain ⟨k, v⟩ := e
      exact ih (keys_nodup_insertGrouped k v h)

theorem keys_nodup_groupPairs {κ α : Type} [DecidableEq κ] (l : List (κ × α)) :
    ((groupPairs l).map (fun e => e.1)).Nodup :=
  keys_nodup_groupInto l (by simp)

theorem groupsTotal_filter_insertGrouped {κ α : Type} [DecidableEq κ]
    (k : κ) (v : α) (acc : List (κ × List α)) (p : κ) :
    groupsTotal ((insertGrouped k v acc).filter (fun g => g.1 == p)) =
    groupsTotal (acc.filter (fun g => g.1 == p)) +
      (if k = p then 1 else 0) := by
  induction acc with
  | nil =>
      by_cases hb : k = p <;>
        simp [insertGrouped, groupsTotal, List.filter_cons, hb]
  | cons g rest ih =>
      obtain ⟨k₀, vs₀⟩ := g
      by_cases hb : k₀ = k
      · subst hb
        simp only [insertGrouped, if_true]
        by_cases hp : k₀ = p
        · subst hp
          simp [List.filter_cons, groupsTotal_cons]
          omega
        · simp [List.filter_cons, hp]
      · simp only [insertGrouped]
        rw [if_neg hb]
        by_cases hp : k₀ = p
        · subst hp
          simp only [List.filter_cons, beq_self_eq_true, if_true,
            groupsTotal_cons, ih]
          omega
        · simp only [List.filter_cons, beq_iff_eq, hp, if_false, ih]

theorem groupsTotal_filter_groupInto {κ α : Type} [DecidableEq κ]
    (l : List (κ × α)) (acc : List (κ × List α)) (p : κ) :
    groupsTotal ((groupInto acc l).filter (fun g => g.1 == p)) =
    groupsTotal (acc.filter (fun g => g.1 == p)) +
      (l.filter (fun e => e.1 == p)).length := by
  induction l generalizing acc with
  | nil => simp [groupInto]
  | cons e rest ih =>
      obtain ⟨k, w⟩ := e
      simp only [groupInto, List.filter_cons]
      rw [ih, groupsTotal_filter_insertGrouped]
      by_cases hb : k = p
      · simp [hb]
        omega
      · simp [hb]

theorem groupsTotal_filter_key {κ α : Type} [DecidableEq κ]
    (l : List (κ × α)) (p : κ) :
    groupsTotal ((groupPairs l).filter (fun g => g.1 == p)) =
    (l.filter (fun e => e.1 == p)).length := by
  rw [groupPairs, groupsTotal_filter_groupInto]
  simp [groupsTotal]

/-- Model of `.agg(pl.col("Proctor").unique())`: deduplicate each group's
value list.
(polars `unique` keeps one copy of each value; this model keeps first
occurrences, order being immaterial to every claim.) -/
def aggUnique {κ : Type} (g : List (κ × List String)) : List (κ × List String) :=
  g.map fun e => (e.1, e.2.dedup)

/-- The normalizing reshape of `clean_proctor_schedule`, up to and including
the grouping: unpivot the `k` Proctor columns, drop null Proctor values,
forward-fill, group by all non-Proctor columns and deduplicate each group's
proctors.  (The subsequent `.dt.combine` of Date and time columns is a
per-row representation change of the key, modelled downstream by the typed
`NormalizedEvent` layer.) -/
def cleanGrouped (k : Nat) (rows : List RawRow) : List (List (Option String) × List String) :=
  aggUnique (groupPairs (fillTable (unpivotDropNulls k rows)))

theorem fillCells_of_all_some {c : List (Option String)}
    (h : ∀ x ∈ c, x.isSome) (p : List (Option String)) : fillCells p c = c := by
  induction c generalizing p with
  | nil => cases p <;> rfl
  | cons x xs ih =>
      cases p with
      | nil => rfl
      | cons q qs =>
          have hx := h x (List.mem_cons_self _ _)
          have hxs : ∀ y ∈ xs, y.isSome := fun y hy => h y (List.mem_cons_of_mem _ hy)
          cases x with
          | none => simp at hx
          | some v => simp [fillCells, fillCell, ih hxs]

theorem mem_fillRows_of_all_some {l : List LongRow} {c : List (Option String)} {s : String}
    (hmem : (c, s) ∈ l) (h : ∀ x ∈ c, x.isSome) (prev : List (Option String)) :
    (c, s) ∈ fillRows prev l := by
  induction l generalizing prev with
  | nil => simp at hmem
  | cons r rest ih =>
      obtain ⟨c₀, p₀⟩ := r
      simp only [List.mem_cons] at hmem
      rcases hmem with hmem | hmem
      · obtain ⟨hc, hp⟩ := Prod.mk.injEq .. ▸ hmem
        simp only [fillRows, List.mem_cons]
        left
        rw [← hc, ← hp, fillCells_of_all_some h]
      · exact List.mem_cons_of_mem _ (ih hmem _)

theorem fillCells_nil (c : List (Option String)) : fillCells [] c = c := by
  cases c <;> rfl

theorem mem_unpivotDropNulls {k : Nat} {rows : List RawRow} {r : RawRow} {j : Nat}
    {v : String} (hr : r ∈ rows) (hj : j < k)
    (hv : r.proctors.getD j none = some v) :
    (r.cells, v) ∈ unpivotDropNulls k rows := by
  simp only [unpivotDropNulls, List.mem_flatMap]
  refine ⟨j, List.mem_range.mpr hj, List.mem_filterMap.mpr ⟨r, hr, ?_⟩⟩
  rw [hv]
  rfl

theorem unpivotDropNulls_drop_all_null {k : Nat} (pre post : List RawRow)
    {r : RawRow} (h : ∀ j, j < k → r.proctors.getD j none = none) :
    unpivotDropNulls k (pre ++ r :: post) = unpivotDropNulls k (pre ++ post) := by
  unfold unpivotDropNulls
  apply List.flatMap_congr
  intro j hj
  rw [List.filterMap_append, List.filterMap_append]
  congr 1
  exact List.filterMap_cons_none (by rw [h j (List.mem_range.mp hj)]; rfl)

theorem eq_of_mem_of_keys_nodup {κ β : Type} {l : List (κ × β)}
    (h : (l.map (fun e => e.1)).Nodup) {e₁ e₂ : κ × β}
    (h₁ : e₁ ∈ l) (h₂ : e₂ ∈ l) (hk : e₁.1 = e₂.1) : e₁ = e₂ := by
  induction l with
  | nil => simp at h₁
  | cons a l ih =>
      simp only [List.map_cons, List.nodup_cons] at h
      simp only [List.mem_cons] at h₁ h₂
      rcases h₁ with h₁ | h₁ <;> rcases h₂ with h₂ | h₂
      · rw [h₁, h₂]
      · exact absurd (List.mem_map.mpr ⟨e₂, h₂, (h₁ ▸ hk).symm⟩) h.1
      · exact absurd (List.mem_map.mpr ⟨e₁, h₁, h₂ ▸ hk⟩) h.1
      · exact ih h.2 h₁ h₂

theorem keys_aggUnique {κ : Type} (g : List (κ × List String)) :
    (aggUnique g).map (fun e => e.1) = g.map (fun e => e.1) := by
  simp [aggUnique, List.map_map, Function.comp]

/-- A two-row, two-Proctor-column sheet whose first row has a null in its
(single) non-Proctor column: row 0 = (null; Proctor 1 "P", Proctor 2 "Q"),
row 1 = ("d"; Proctor 1 "R", Proctor 2 null). -/
def nullHeadRows : List RawRow :=
  [⟨[none], [some "P", some "Q"]⟩, ⟨[some "d"], [some "R", none]⟩]

/-- C8: the forward-fill over the unpivoted (and Proctor-filtered) table is
idempotent — applying `fill_null(strategy="forward")` twice produces the
same table as applying it once, for every sheet. -/
theorem c8_forward_fill_idempotent (k : Nat) (rows : List RawRow) :
    fillTable (fillTable (unpivotDropNulls k rows)) =
    fillTable (unpivotDropNulls k rows) :=
  fillRows_idem [] _

/-- C4 counterexample: in `nullHeadRows` the first sheet row has a null cell
and carries proctor "Q" in its second Proctor column.  After unpivoting, that
copy sits below the other rows, and the forward fill rewrites its null cell
to `some "d"` — so the fill does NOT leave the cell null in every unpivoted
copy of the sheet's first row. -/
theorem c4_counterexample :
    (nullHeadRows.getD 0 ⟨[], []⟩).cells = [none] ∧
    (nullHeadRows.getD 0 ⟨[], []⟩).proctors.getD 1 none = some "Q" ∧
    fillTable (unpivotDropNulls 2 nullHeadRows) =
      [([none], "P"), ([some "d"], "R"), ([some "d"], "Q")] := by
  decide

/-- C4 (amended): forward-fill leaves the first row of the unpivoted,
Proctor-filtered table entirely unchanged — a null cell in the sheet's first
row stays null in that first copy (no earlier value exists to carry
forward) — but later unpivoted copies of the sheet's first row may have
their nulls filled from preceding rows of the long table. -/
theorem c4_fill_preserves_first_long_row (r : LongRow) (rest : List LongRow) :
    (fillTable (r :: rest)).head? = some r := by
  obtain ⟨c, p⟩ := r
  simp [fillTable, fillRows, fillCells_nil]

/-- C2 counterexample: raw row 0 of `nullHeadRows` has the non-null proctor
value "Q", yet after cleaning, "Q" appears in no NormalizedEvent whose
grouping key matches that row's non-Proctor cells `[none]` — the forward
fill moved its unpivoted copy into the `[some "d"]` group. -/
theorem c2_counterexample :
    (nullHeadRows.getD 0 ⟨[], []⟩).proctors.getD 1 none = some "Q" ∧
    cleanGrouped 2 nullHeadRows = [([none], ["P"]), ([some "d"], ["R", "Q"])] ∧
    (cleanGrouped 2 nullHeadRows).filter
      (fun e => e.1 == (nullHeadRows.getD 0 ⟨[], []⟩).cells && e.2.contains "Q")
      = [] := by
  decide

/-- C2 (amended): (1) every non-null Proctor value of a RawRow whose
non-Proctor cells are all non-null appears in the proctors set of an event
whose grouping key equals that row's cells (rows touched by the forward fill
may instead land under the filled key, as `c2_counterexample` shows);
(2) distinct NormalizedEvents have distinct grouping keys, so that event is
unique; (3) every event's proctor set is deduplicated; (4) a RawRow whose
Proctor columns are all null contributes no NormalizedEvent. -/
theorem c2_normalization_completeness (k : Nat) (rows : List RawRow) :
    (∀ r ∈ rows, (∀ x ∈ r.cells, x.isSome) →
      ∀ j, j < k → ∀ v, r.proctors.getD j none = some v →
        ∃ e ∈ cleanGrouped k rows, e.1 = r.cells ∧ v ∈ e.2) ∧
    (∀ e₁ ∈ cleanGrouped k rows, ∀ e₂ ∈ cleanGrouped k rows,
      e₁.1 = e₂.1 → e₁ = e₂) ∧
    (∀ e ∈ cleanGrouped k rows, e.2.Nodup) ∧
    (∀ pre post r, (∀ j, j < k → r.proctors.getD j none = none) →
      cleanGrouped k (pre ++ r :: post) = cleanGrouped k (pre ++ post)) := by
  refine ⟨?_, ?_, ?_, ?_⟩
  · intro r hr hsome j hj v hv
    have h1 := mem_unpivotDropNulls hr hj hv
    have h2 := mem_fillRows_of_all_some h1 hsome []
    obtain ⟨vs, hg, hvvs⟩ := mem_groupPairs_of_mem h2
    refine ⟨(r.cells, vs.dedup), ?_, rfl, List.mem_dedup.mpr hvvs⟩
    exact List.mem_map.mpr ⟨(r.cells, vs), hg, rfl⟩
  · intro e₁ h₁ e₂ h₂ hk
    have hnd : ((cleanGrouped k rows).map (fun e => e.1)).Nodup := by
      rw [cleanGrouped, keys_aggUnique]
      exact keys_nodup_groupPairs _
    exact eq_of_mem_of_keys_nodup hnd h₁ h₂ hk
  · intro e he
    obtain ⟨g, _, rfl⟩ := List.mem_map.mp he
    exact List.nodup_dedup _
  · intro pre post r h
    unfold cleanGrouped fillTable
    rw [unpivotDropNulls_drop_all_null pre post h]

/-- Witness for `c2_normalization_completeness`: raw row 1 of `nullHeadRows`
has no null cells, so its proctor "R" is found in the unique event keyed by
its cells. -/
theorem c2_normalization_completeness_witness :
    ∃ e ∈ cleanGrouped 2 nullHeadRows,
      e.1 = [some "d"] ∧ "R" ∈ e.2 :=
  (c2_normalization_completeness 2 nullHeadRows).1
    ⟨[some "d"], [some "R", none]⟩ (by decide) (by decide) 0 (by decide) "R"
    (by decide)

/-! ## Typed layer: normalized events, conflict detection -/

/-- One row of the cleaned schedule: the non-Proctor columns with Date and
times already combined into timezone-aware instants (modelled as minutes,
`Int`), plus the aggregated, deduplicated proctor list. -/
structure NormalizedEvent where
  date : String
  startTime : Int
  endTime : Int
  location : String
  subject : String
  course : String
  sectionName : String
  instructor : String
  studentsEnrolled : Nat
  proctors : List String
deriving DecidableEq, Repr

/-- One proctor appointment, produced by `sched.explode("Proctor")` in
`check_for_double_bookings`: the event columns paired with a single
proctor. -/
structure Assignment where
  proctor : String
  date : String
  startTime : Int
  endTime : Int
  location : String
  course : String
  sectionName : String
deriving DecidableEq, Repr

/-- Model of `sched.explode("Proctor")`: one Assignment per proctor per
event, in row order. -/
def explodeProctor (s : List NormalizedEvent) : List Assignment :=
  s.flatMap fun e => e.proctors.map fun p =>
    { proctor := p, date := e.date, startTime := e.startTime,
      endTime := e.endTime, location := e.location, course := e.course,
      sectionName := e.sectionName }

/-- The `join_where` predicate of `check_for_double_bookings`: the same
proctor holds an appointment that starts before another appointment starts,
ends after that other appointment starts, and is not for the same
location. -/
def isDoubleBooked (a b : Assignment) : Bool :=
  a.proctor == b.proctor &&
    decide (a.startTime < b.startTime) &&
    decide (a.endTime > b.startTime) &&
    ! (a.location == b.location)

/-- Model of `check_for_double_bookings`: the self-join of the exploded
appointments
under `isDoubleBooked`, yielding the warned (left row, right row) pairs. -/
def checkForDoubleBookings (s : List NormalizedEvent) :
    List (Assignment × Assignment) :=
  let appointments := explodeProctor s
  appointments.flatMap fun a =>
    (appointments.filter fun b => isDoubleBooked a b).map fun b => (a, b)

/-- The spec's concrete conflict scenario: one proctor "A", location "X"
10:00-11:00 and location "Y" 10:30-11:30 (minutes from midnight). -/
def scenarioOverlap : List NormalizedEvent :=
  [{ date := "2024-07-02", startTime := 600, endTime := 660, location := "X",
     subject := "Calculus", course := "1000", sectionName := "001",
     instructor := "Smith", studentsEnrolled := 30, proctors := ["A"] },
   { date := "2024-07-02", startTime := 630, endTime := 690, location := "Y",
     subject := "Algebra", course := "2000", sectionName := "002",
     instructor := "Jones", studentsEnrolled := 20, proctors := ["A"] }]

/-- The same overlap with both events at location "X". -/
def scenarioSameLocation : List NormalizedEvent :=
  [{ date := "2024-07-02", startTime := 600, endTime := 660, location := "X",
     subject := "Calculus", course := "1000", sectionName := "001",
     instructor := "Smith", studentsEnrolled := 30, proctors := ["A"] },
   { date := "2024-07-02", startTime := 630, endTime := 690, location := "X",
     subject := "Algebra", course := "2000", sectionName := "002",
     instructor := "Jones", studentsEnrolled := 20, proctors := ["A"] }]

theorem isDoubleBooked_iff (a b : Assignment) :
    isDoubleBooked a b = true ↔
      a.proctor = b.proctor ∧ a.startTime < b.startTime ∧
      b.startTime < a.endTime ∧ a.location ≠ b.location := by
  simp [isDoubleBooked, and_assoc, GT.gt]

/-- C1: a pair (A, B) of exploded assignments is reported as a double
booking iff both appear in the exploded collection, share a proctor, and
`A.start < B.start ∧ A.end > B.start ∧ A.location ≠ B.location`; the test
is one-sided, so the concrete X 10:00-11:00 / Y 10:30-11:30 scenario is
reported exactly once, and the same overlap within one location is not
reported at all. -/
theorem c1_conflict_report_iff :
    (∀ (s : List NormalizedEvent) (a b : Assignment),
      (a, b) ∈ checkForDoubleBookings s ↔
        a ∈ explodeProctor s ∧ b ∈ explodeProctor s ∧
        a.proctor = b.proctor ∧ a.startTime < b.startTime ∧
        a.endTime > b.startTime ∧ a.location ≠ b.location) ∧
    (checkForDoubleBookings scenarioOverlap).length = 1 ∧
    checkForDoubleBookings scenarioSameLocation = [] := by
  refine ⟨?_, by decide, by decide⟩
  intro s a b
  constructor
  · intro h
    simp only [checkForDoubleBookings, List.mem_flatMap, List.mem_map,
      List.mem_filter] at h
    obtain ⟨a', ha', b', ⟨hb', hcond⟩, heq⟩ := h
    have ha : a' = a := congrArg Prod.fst heq
    have hb : b' = b := congrArg Prod.snd heq
    subst ha; subst hb
    obtain ⟨h1, h2, h3, h4⟩ := (isDoubleBooked_iff a' b').mp hcond
    exact ⟨ha', hb', h1, h2, h3, h4⟩
  · rintro ⟨ha, hb, h1, h2, h3, h4⟩
    simp only [checkForDoubleBookings, List.mem_flatMap, List.mem_map]
    refine ⟨a, ha, b, List.mem_filter.mpr ⟨hb, ?_⟩, rfl⟩
    exact (isDoubleBooked_iff a b).mpr ⟨h1, h2, h3, h4⟩

/-! ## Event Builder: building-abbreviation substitution and descriptions -/

/-- Python `str.replace` on character lists: every non-overlapping
occurrence of `pat`, scanning left to right, is replaced by `rep`.  The
`fuel` argument only bounds recursion depth; each step consumes at least
one character, so `fuel = s.length` is always enough. -/
def replaceChars (pat rep : List Char) : Nat → List Char → List Char
  | _, [] => []
  | 0, s => s
  | fuel + 1, c :: cs =>
      if pat.isPrefixOf (c :: cs) then
        rep ++ replaceChars pat rep fuel (cs.drop (pat.length - 1))
      else
        c :: replaceChars pat rep fuel cs

/-- Python `building.replace(pattern, replacement)` for the non-empty
patterns the pipeline uses (abbreviation codes; Python's empty-pattern
interleaving behaviour is unreachable here and modelled as identity). -/
def pyReplace (s pat rep : String) : String :=
  if pat.isEmpty then s
  else ⟨replaceChars pat.data rep.data s.data.length s.data⟩

/-- Model of `row["Location"].split("-")[0]`: the building token is the
part of
the raw Location string before the first "-". -/
def buildingToken (location : String) : String :=
  ⟨location.data.takeWhile (fun c => c != '-')⟩

/-- Ordering used by
`.sort(pl.col("Abbreviation").str.len_chars(), descending=True)`:
abbreviation codes of greater length come first. -/
def insertByLen (x : String × String) :
    List (String × String) → List (String × String)
  | [] => [x]
  | y :: ys =>
      if x.1.length < y.1.length then y :: insertByLen x ys
      else x :: y :: ys

/-- Stable sort of the abbreviation table by code length, descending. -/
def sortAbbrevs (abbrs : List (String × String)) : List (String × String) :=
  abbrs.foldr insertByLen []

/-- Substitution step of `create_events`: take the building token of the raw
Location, then apply every `(Abbreviation, replacement-text)` entry in
length-descending order as a literal Python `str.replace`.  (In the source
the replacement text is the CSV's `Building` column concatenated with
`": " + Address`; the table is abstracted here as code/replacement
pairs.) -/
def substituteBuilding (abbrs : List (String × String)) (location : String) :
    String :=
  (sortAbbrevs abbrs).foldl (fun b a => pyReplace b a.1 a.2)
    (buildingToken location)

/-- One icalendar VEVENT as built by `create_events`. -/
structure Event where
  uid : Nat
  summary : String
  description : String
  location : String
  dtstart : Int
  dtend : Int
deriving DecidableEq, Repr

/-- The description text of `create_events`: the short fixed template for
the "Make-up Exam" sentinel Subject, the full template otherwise. -/
def mkDescription (r : NormalizedEvent) (building : String) : String :=
  if r.subject = "Make-up Exam" then
    "Make-up exam\nProctors: " ++ String.intercalate ", " r.proctors
  else
    r.subject ++ " " ++ r.course ++ "-" ++ r.sectionName ++ " for " ++
      r.instructor ++ ", " ++ toString r.studentsEnrolled ++
      " students\nProctors: " ++ String.intercalate ", " r.proctors ++
      "\nBuilding: " ++ building

/-- The event built for one cleaned row by the body of `create_events`'
loop. -/
def buildEvent (u : Nat) (abbrs : List (String × String))
    (r : NormalizedEvent) : Event :=
  { uid := u, summary := "Proctoring",
    description := mkDescription r (substituteBuilding abbrs r.location),
    location := r.location, dtstart := r.startTime, dtend := r.endTime }

/-- Model of `create_events`: one event per cleaned row, in row order,
each with a
fresh uid drawn from the supply (`uuid4()` per loop iteration). -/
def createEvents (uid : Nat → Nat) (abbrs : List (String × String)) :
    Nat → List NormalizedEvent → List Event
  | _, [] => []
  | i, r :: rs => buildEvent (uid i) abbrs r :: createEvents uid abbrs (i + 1) rs

theorem perm_insertByLen (x : String × String) (l : List (String × String)) :
    (insertByLen x l).Perm (x :: l) := by
  induction l with
  | nil => exact List.Perm.refl _
  | cons y ys ih =>
      by_cases h : x.1.length < y.1.length
      · simp only [insertByLen, if_pos h]
        exact (ih.cons y).trans (List.Perm.swap x y ys)
      · simp only [insertByLen, if_neg h]
        exact List.Perm.refl _

theorem perm_sortAbbrevs (abbrs : List (String × String)) :
    (sortAbbrevs abbrs).Perm abbrs := by
  induction abbrs with
  | nil => exact List.Perm.refl _
  | cons a l ih =>
      exact (perm_insertByLen a (sortAbbrevs l)).trans (ih.cons a)

theorem pairwise_insertByLen {x : String × String} {l : List (String × String)}
    (h : l.Pairwise (fun a b => b.1.length ≤ a.1.length)) :
    (insertByLen x l).Pairwise (fun a b => b.1.length ≤ a.1.length) := by
  induction l with
  | nil => simp [insertByLen]
  | cons y ys ih =>
      rw [List.pairwise_cons] at h
      obtain ⟨hy, hys⟩ := h
      by_cases hc : x.1.length < y.1.length
      · simp only [insertByLen, if_pos hc]
        rw [List.pairwise_cons]
        refine ⟨?_, ih hys⟩
        intro z hz
        rcases List.mem_cons.mp ((perm_insertByLen x ys).mem_iff.mp hz) with
          hz | hz
        · exact hz ▸ Nat.le_of_lt hc
        · exact hy z hz
      · simp only [insertByLen, if_neg hc]
        rw [List.pairwise_cons]
        refine ⟨?_, List.pairwise_cons.mpr ⟨hy, hys⟩⟩
        intro z hz
        rcases List.mem_cons.mp hz with hz | hz
        · exact hz ▸ Nat.le_of_not_lt hc
        · exact Nat.le_trans (hy z hz) (Nat.le_of_not_lt hc)

theorem pairwise_sortAbbrevs (abbrs : List (String × String)) :
    (sortAbbrevs abbrs).Pairwise (fun a b => b.1.length ≤ a.1.length) := by
  induction abbrs with
  | nil => simp [sortAbbrevs]
  | cons a l ih => exact pairwise_insertByLen ih

/-- The claim's two-entry abbreviation table: code "S" expands to "Sx",
code "SC" expands to "Science Centre". -/
def c3abbrevs : List (String × String) := [("S", "Sx"), ("SC", "Science Centre")]

/-- C3 counterexample: on Location "SC-100" with that table, the
substitution yields "Sxcience Centre" — the longer code "SC" is applied
first, but the shorter code "S" then rewrites the replacement text — so
the claimed output "Science Centre-100" is not produced (the room suffix
is not part of the substituted building text either). -/
theorem c3_counterexample :
    substituteBuilding c3abbrevs "SC-100" = "Sxcience Centre" ∧
    substituteBuilding c3abbrevs "SC-100" ≠ "Science Centre-100" := by
  constructor
  · rfl
  · decide

/-- C3 (amended): the abbreviation table really is applied longest-code
first (the sort is a permutation of the table that is length-descending),
so a shorter code never pre-empts a longer one in the original building
token — in particular "Sxc-100" is never produced — but later (shorter)
codes still rewrite the replacement text of earlier ones, so "SC-100"
yields "Sxcience Centre" rather than the claimed "Science Centre-100". -/
theorem c3_longest_first_substitution :
    (∀ abbrs : List (String × String),
      (sortAbbrevs abbrs).Pairwise (fun a b => b.1.length ≤ a.1.length) ∧
      (sortAbbrevs abbrs).Perm abbrs) ∧
    substituteBuilding c3abbrevs "SC-100" = "Sxcience Centre" ∧
    substituteBuilding c3abbrevs "SC-100" ≠ "Sxc-100" := by
  refine ⟨fun abbrs => ⟨pairwise_sortAbbrevs abbrs, perm_sortAbbrevs abbrs⟩,
    rfl, by decide⟩

/-- A sample cleaned row with an ordinary Subject. -/
def sampleRow : NormalizedEvent :=
  { date := "2024-07-02", startTime := 600, endTime := 660, location := "X",
    subject := "Calculus", course := "1000", sectionName := "001",
    instructor := "Smith", studentsEnrolled := 30, proctors := ["A"] }

/-- A sample cleaned row carrying the "Make-up Exam" sentinel Subject. -/
def makeupRow : NormalizedEvent :=
  { date := "2024-07-02", startTime := 600, endTime := 660,
    location := "AHB-100", subject := "Make-up Exam", course := "1000",
    sectionName := "001", instructor := "Smith", studentsEnrolled := 5,
    proctors := ["A", "B"] }

/-- C6: a row whose Subject is exactly "Make-up Exam" gets the short fixed
description template, which does not depend on the Course, Section,
Instructor, enrollment or building fields; any other Subject gets the full
template containing all of them. -/
theorem c6_makeup_description (r : NormalizedEvent) (b : String) :
    (r.subject = "Make-up Exam" →
      mkDescription r b =
        "Make-up exam\nProctors: " ++ String.intercalate ", " r.proctors ∧
      (∀ c sec ins n b₁,
        mkDescription
          { r with
              course := c, sectionName := sec,
              instructor := ins, studentsEnrolled := n } b₁ =
          mkDescription r b)) ∧
    (r.subject ≠ "Make-up Exam" →
      mkDescription r b =
        r.subject ++ " " ++ r.course ++ "-" ++ r.sectionName ++ " for " ++
        r.instructor ++ ", " ++ toString r.studentsEnrolled ++
        " students\nProctors: " ++ String.intercalate ", " r.proctors ++
        "\nBuilding: " ++ b) := by
  constructor
  · intro h
    constructor
    · simp [mkDescription, h]
    · intro c sec ins n b₁
      simp [mkDescription, h]
  · intro h
    simp [mkDescription, h]

/-- Witness for `c6_makeup_description` at the two sample rows. -/
theorem c6_makeup_description_witness :
    mkDescription makeupRow "AHB" =
      "Make-up exam\nProctors: " ++
        String.intercalate ", " makeupRow.proctors ∧
    mkDescription sampleRow "X" =
      sampleRow.subject ++ " " ++ sampleRow.course ++ "-" ++
        sampleRow.sectionName ++ " for " ++ sampleRow.instructor ++ ", " ++
        toString sampleRow.studentsEnrolled ++ " students\nProctors: " ++
        String.intercalate ", " sampleRow.proctors ++ "\nBuilding: " ++
        "X" :=
  ⟨((c6_makeup_description makeupRow "AHB").1 rfl).1,
    (c6_makeup_description sampleRow "X").2 (by decide)⟩

/-- C9: the `location` field of every built event is the raw Location
string of its row, untouched by the building-abbreviation substitution
(which only feeds the description text). -/
theorem c9_location_field_raw (uid : Nat → Nat)
    (abbrs : List (String × String)) (i : Nat) (s : List NormalizedEvent) :
    (createEvents uid abbrs i s).map (fun e => e.location) =
      s.map (fun r => r.location) := by
  induction s generalizing i with
  | nil => rfl
  | cons r rs ih => simp [createEvents, buildEvent, ih]

/-! ## Calendar Assembler: `main` -/

/-- Model of `sched.explode("Proctor")` over rows paired with their built
events:
one `(proctor, event)` row per proctor per event, reusing the already-built
event record. -/
def explodeEvents (pairs : List (NormalizedEvent × Event)) :
    List (String × Event) :=
  pairs.flatMap fun re => re.1.proctors.map fun p => (p, re.2)

/-- Model of `pl.col("Start time") - pl.duration(minutes=start_offset_mins)`:
subtract the start offset from every event's start instant. -/
def applyOffset (offset : Int) (s : List NormalizedEvent) :
    List NormalizedEvent :=
  s.map fun r => { r with startTime := r.startTime - offset }

/-- Everything `main` computes from the cleaned schedule: the conflict
warnings, the aggregate calendar's events, and the per-proctor calendars'
events grouped by proctor name. -/
structure MainResult where
  warnings : List (Assignment × Assignment)
  aggregate : List Event
  perProctor : List (String × List Event)
deriving Repr

/-- The body of `main` after `clean_proctor_schedule`: shift start times,
build one event per row, check for double bookings (warnings only), write
the aggregate calendar from the Event column, then explode by Proctor and
write one calendar per proctor group from the same Event column. -/
def mainRun (uid : Nat → Nat) (abbrs : List (String × String))
    (offset : Int) (s : List NormalizedEvent) : MainResult :=
  let sched := applyOffset offset s
  let events := createEvents uid abbrs 0 sched
  let warnings := checkForDoubleBookings sched
  { warnings := warnings,
    aggregate := events,
    perProctor := groupPairs (explodeEvents (sched.zip events)) }

/-- The same calendar outputs computed without any conflict-detection
pass. -/
def buildCalendars (uid : Nat → Nat) (abbrs : List (String × String))
    (offset : Int) (s : List NormalizedEvent) :
    List Event × List (String × List Event) :=
  let sched := applyOffset offset s
  let events := createEvents uid abbrs 0 sched
  (events, groupPairs (explodeEvents (sched.zip events)))

/-- C5: conflict detection is warnings-only and never fatal — `mainRun`
always completes with exactly the calendars that the conflict-free
pipeline `buildCalendars` produces, whatever conflicts exist, and its
warnings are exactly the detected double bookings. -/
theorem c5_conflicts_never_fatal (uid : Nat → Nat)
    (abbrs : List (String × String)) (offset : Int)
    (s : List NormalizedEvent) :
    (mainRun uid abbrs offset s).aggregate =
      (buildCalendars uid abbrs offset s).1 ∧
    (mainRun uid abbrs offset s).perProctor =
      (buildCalendars uid abbrs offset s).2 ∧
    (mainRun uid abbrs offset s).warnings =
      checkForDoubleBookings (applyOffset offset s) :=
  ⟨rfl, rfl, rfl⟩

theorem length_createEvents (uid : Nat → Nat) (abbrs : List (String × String)) :
    ∀ (i : Nat) (s : List NormalizedEvent),
      (createEvents uid abbrs i s).length = s.length
  | _, [] => rfl
  | i, _ :: rs => by
      simp only [createEvents, List.length_cons]
      rw [length_createEvents uid abbrs (i + 1) rs]

theorem length_explodeEvents (pairs : List (NormalizedEvent × Event)) :
    (explodeEvents pairs).length =
      (pairs.map (fun re => re.1.proctors.length)).sum := by
  induction pairs with
  | nil => rfl
  | cons re rest ih =>
      simp only [explodeEvents, List.flatMap_cons, List.length_append,
        List.length_map, List.map_cons, List.sum_cons]
      simp only [explodeEvents] at ih
      rw [ih]

theorem length_filter_pair_map (ps : List String) (e : Event) (p : String) :
    ((ps.map (fun q => (q, e))).filter (fun g => g.1 == p)).length =
      ps.count p := by
  induction ps with
  | nil => rfl
  | cons q qs ih =>
      simp only [List.map_cons, List.filter_cons, List.count_cons]
      by_cases h : q = p
      · subst h
        simp [ih]
      · simp [h, ih]

theorem length_filter_explodeEvents (pairs : List (NormalizedEvent × Event))
    (p : String) :
    ((explodeEvents pairs).filter (fun g => g.1 == p)).length =
      (pairs.map (fun re => re.1.proctors.count p)).sum := by
  induction pairs with
  | nil => rfl
  | cons re rest ih =>
      simp only [explodeEvents, List.flatMap_cons, List.filter_append,
        List.length_append, List.map_cons, List.sum_cons]
      rw [length_filter_pair_map]
      simp only [explodeEvents] at ih
      rw [ih]

theorem map_fst_zip_createEvents (uid : Nat → Nat)
    (abbrs : List (String × String)) (i : Nat) (s : List NormalizedEvent) :
    (s.zip (createEvents uid abbrs i s)).map Prod.fst = s :=
  List.map_fst_zip s _ (Nat.le_of_eq (length_createEvents uid abbrs i s).symm)

theorem proctors_applyOffset (offset : Int) (s : List NormalizedEvent)
    {β : Type} (f : List String → β) :
    (applyOffset offset s).map (fun r => f r.proctors) =
      s.map (fun r => f r.proctors) := by
  rw [applyOffset, List.map_map]
  rfl

theorem sum_count_eq_filter_length (p : String) (s : List NormalizedEvent)
    (h : ∀ r ∈ s, r.proctors.Nodup) :
    (s.map (fun r => r.proctors.count p)).sum =
      (s.filter (fun r => decide (p ∈ r.proctors))).length := by
  induction s with
  | nil => rfl
  | cons r rs ih =>
      simp only [List.map_cons, List.sum_cons, List.filter_cons]
      have hr := h r (List.mem_cons_self _ _)
      have hrs := ih fun x hx => h x (List.mem_cons_of_mem _ hx)
      by_cases hm : p ∈ r.proctors
      · rw [List.count_eq_one_of_mem hr hm]
        simp [hm, hrs]
        omega
      · rw [List.count_eq_zero_of_not_mem hm]
        simp [hm, hrs]

/-- C7: the aggregate calendar holds exactly one event per cleaned row (no
duplication per proctor); summed over all per-proctor calendars, events
counted with multiplicity total the sum of the rows' proctor-list sizes;
the calendar of proctor `p` holds one event per occurrence of `p` in a
row's proctor list, which (proctor lists being deduplicated) is exactly
the number of events `p` is assigned to. -/
theorem c7_event_counts (uid : Nat → Nat) (abbrs : List (String × String))
    (offset : Int) (s : List NormalizedEvent) :
    (mainRun uid abbrs offset s).aggregate.length = s.length ∧
    groupsTotal (mainRun uid abbrs offset s).perProctor =
      (s.map (fun r => r.proctors.length)).sum ∧
    (∀ p, groupsTotal
        ((mainRun uid abbrs offset s).perProctor.filter (fun g => g.1 == p)) =
      (s.map (fun r => r.proctors.count p)).sum) ∧
    ((∀ r ∈ s, r.proctors.Nodup) → ∀ p, groupsTotal
        ((mainRun uid abbrs offset s).perProctor.filter (fun g => g.1 == p)) =
      (s.filter (fun r => decide (p ∈ r.proctors))).length) := by
  have hzip : ∀ {β : Type} (f : List String → β),
      ((applyOffset offset s).zip
          (createEvents uid abbrs 0 (applyOffset offset s))).map
        (fun re => f re.1.proctors) = s.map (fun r => f r.proctors) := by
    intro β f
    have h1 : (fun re : NormalizedEvent × Event => f re.1.proctors) =
        (fun r : NormalizedEvent => f r.proctors) ∘ Prod.fst := rfl
    rw [h1, ← List.map_map, map_fst_zip_createEvents,
      proctors_applyOffset]
  have hcount : ∀ p, groupsTotal
      ((mainRun uid abbrs offset s).perProctor.filter (fun g => g.1 == p)) =
      (s.map (fun r => r.proctors.count p)).sum := by
    intro p
    show groupsTotal
      ((groupPairs (explodeEvents _)).filter (fun g => g.1 == p)) = _
    rw [groupsTotal_filter_key, length_filter_explodeEvents,
      hzip (fun ps => ps.count p)]
  refine ⟨?_, ?_, hcount, ?_⟩
  · show (createEvents uid abbrs 0 (applyOffset offset s)).length = _
    rw [length_createEvents, applyOffset, List.length_map]
  · show groupsTotal (groupPairs (explodeEvents _)) = _
    rw [groupsTotal_groupPairs, length_explodeEvents,
      hzip (fun ps => ps.length)]
  · intro h p
    rw [hcount p, sum_count_eq_filter_length p s h]

/-- Witness for `c7_event_counts` at the concrete overlap scenario (both
rows have the singleton, duplicate-free proctor list ["A"]). -/
theorem c7_event_counts_witness :
    groupsTotal
        ((mainRun (fun i => i) [] 30 scenarioOverlap).perProctor.filter
          (fun g => g.1 == "A")) =
      (scenarioOverlap.filter
        (fun r => decide ("A" ∈ r.proctors))).length :=
  (c7_event_counts (fun i => i) [] 30 scenarioOverlap).2.2.2
    (by decide) "A"

/-- C10: per-proctor calendars reuse the already-built event records: every
event of every per-proctor calendar is (uid included) one of the aggregate
calendar's events, and each row's built event appears in the calendar of
each of its proctors. -/
theorem c10_per_proctor_reuses_events (uid : Nat → Nat)
    (abbrs : List (String × String)) (offset : Int)
    (s : List NormalizedEvent) :
    (∀ p es, (p, es) ∈ (mainRun uid abbrs offset s).perProctor →
      ∀ e ∈ es, e ∈ (mainRun uid abbrs offset s).aggregate) ∧
    (∀ re ∈ (applyOffset offset s).zip
        (createEvents uid abbrs 0 (applyOffset offset s)),
      ∀ p ∈ re.1.proctors,
        ∃ es, (p, es) ∈ (mainRun uid abbrs offset s).perProctor ∧
          re.2 ∈ es) := by
  constructor
  · intro p es hmem e he
    have h := mem_of_mem_groupPairs hmem he
    simp only [explodeEvents, List.mem_flatMap, List.mem_map] at h
    obtain ⟨re, hre, q, _, heq⟩ := h
    have he2 : re.2 = e := congrArg Prod.snd heq
    exact he2 ▸ (List.of_mem_zip hre).2
  · intro re hre p hp
    apply mem_groupPairs_of_mem
    simp only [explodeEvents, List.mem_flatMap, List.mem_map]
    exact ⟨re, hre, p, hp, rfl⟩

/-- Witness for `c10_per_proctor_reuses_events`: with one sample row and
offset 0, the event built for it ends up in proctor "A"'s calendar. -/
theorem c10_per_proctor_reuses_events_witness :
    ∃ es, ("A", es) ∈ (mainRun (fun i => i) [] 0 [sampleRow]).perProctor ∧
      buildEvent 0 [] sampleRow ∈ es :=
  (c10_per_proctor_reuses_events (fun i => i) [] 0 [sampleRow]).2
    (sampleRow, buildEvent 0 [] sampleRow) (by decide) "A" (by decide)

end ProctorSchedule
